import Mathlib

/-!
Shallow embedding of the deadlock-handling repository
(`vpc.py`, `decision_tree.py`, `app.py`) and verification of the
specification's claims about it.

Python floats are modelled as exact rationals (`ℚ`), machine integers as
`ℤ`, strings as `String`.  `round(x, n)` in Python rounds half to even;
`pyRoundInt` reproduces that.
-/

/-- Python's `round` to an integer: round half to even (banker's rounding). -/
def pyRoundInt (q : ℚ) : ℤ :=
  if q - ⌊q⌋ < 1/2 then ⌊q⌋
  else if 1/2 < q - ⌊q⌋ then ⌊q⌋ + 1
  else if ⌊q⌋ % 2 = 0 then ⌊q⌋ else ⌊q⌋ + 1

/-- Python's `round(x, ndigits)` on our rational model of floats. -/
def pyRound (ndigits : ℕ) (q : ℚ) : ℚ :=
  ((pyRoundInt (q * (10 : ℚ) ^ ndigits) : ℚ)) / (10 : ℚ) ^ ndigits

/-- Embeds `round(x, 1)` of the source. -/
def round1 (q : ℚ) : ℚ := pyRound 1 q

/-- Embeds `round(x, 2)` of the source. -/
def round2 (q : ℚ) : ℚ := pyRound 2 q

/-- Embeds `round(x, 3)` of the source. -/
def round3 (q : ℚ) : ℚ := pyRound 3 q

/-- Clamp `max(0.0, min(1.0, x))` used throughout `decision_tree.py`. -/
def clamp01 (q : ℚ) : ℚ := max 0 (min 1 q)

theorem pyRoundInt_le (q : ℚ) : (pyRoundInt q : ℚ) ≤ q + 1/2 := by
  have h1 : ((⌊q⌋ : ℤ) : ℚ) ≤ q := Int.floor_le q
  have h2 : q < (⌊q⌋ : ℤ) + 1 := Int.lt_floor_add_one q
  unfold pyRoundInt
  split_ifs <;> push_cast <;> linarith

theorem le_pyRoundInt (q : ℚ) : q - 1/2 ≤ (pyRoundInt q : ℚ) := by
  have h1 : ((⌊q⌋ : ℤ) : ℚ) ≤ q := Int.floor_le q
  have h2 : q < (⌊q⌋ : ℤ) + 1 := Int.lt_floor_add_one q
  unfold pyRoundInt
  split_ifs <;> push_cast <;> linarith

theorem round2_le (q : ℚ) : round2 q ≤ q + 1/200 := by
  have h := pyRoundInt_le (q * (10 : ℚ) ^ 2)
  unfold round2 pyRound
  rw [div_le_iff₀ (by norm_num : (0:ℚ) < (10:ℚ)^2)]
  nlinarith

theorem le_round2 (q : ℚ) : q - 1/200 ≤ round2 q := by
  have h := le_pyRoundInt (q * (10 : ℚ) ^ 2)
  unfold round2 pyRound
  rw [le_div_iff₀ (by norm_num : (0:ℚ) < (10:ℚ)^2)]
  nlinarith

theorem round3_nonneg {q : ℚ} (h : 0 ≤ q) : 0 ≤ round3 q := by
  have hb := le_pyRoundInt (q * (10 : ℚ) ^ 3)
  have hq : 0 ≤ q * (10 : ℚ) ^ 3 := by positivity
  unfold round3 pyRound
  set c := pyRoundInt (q * (10 : ℚ) ^ 3) with hc
  have hz : (-1 : ℤ) < c := by
    have : (-1 : ℚ) < (c : ℚ) := by linarith
    exact_mod_cast this
  apply div_nonneg _ (by norm_num)
  have : (0 : ℤ) ≤ c := by omega
  exact_mod_cast this

theorem round3_le_one {q : ℚ} (h : q ≤ 1) : round3 q ≤ 1 := by
  have hb := pyRoundInt_le (q * (10 : ℚ) ^ 3)
  have hq : q * (10 : ℚ) ^ 3 ≤ (10 : ℚ) ^ 3 := by nlinarith
  unfold round3 pyRound
  set c := pyRoundInt (q * (10 : ℚ) ^ 3) with hc
  have hz : c < 1001 := by
    have h10 : ((10:ℚ))^3 = 1000 := by norm_num
    have : (c : ℚ) < 1001 := by linarith
    exact_mod_cast this
  rw [div_le_one (by norm_num : (0:ℚ) < (10:ℚ)^3)]
  have h1000 : c ≤ 1000 := by omega
  calc (c : ℚ) ≤ ((1000 : ℤ) : ℚ) := by exact_mod_cast h1000
    _ ≤ (10 : ℚ) ^ 3 := by norm_num

/-- Membership in the unit interval: `0 ≤ q ∧ q ≤ 1`. -/
def inUnit (q : ℚ) : Prop := 0 ≤ q ∧ q ≤ 1

theorem round3_inUnit {q : ℚ} (h : inUnit q) : inUnit (round3 q) :=
  ⟨round3_nonneg h.1, round3_le_one h.2⟩

theorem clamp01_inUnit (q : ℚ) : inUnit (clamp01 q) :=
  ⟨le_max_left 0 _, max_le zero_le_one (min_le_left 1 q)⟩

/- ===== Data model (spec §3, shapes used by the source) ===== -/

/-- A host telemetry sample (row of `df_host` in `vpc.py`). -/
structure HostSample where
  pid : ℤ
  name : String
  cpu_percent : ℚ
  memory_percent : ℚ
deriving DecidableEq

/-- A virtual allocation (row of `df_virtual`, produced by `map_host_to_virtual`). -/
structure VirtualTask where
  pid : ℤ
  name : String
  v_cpu_alloc : ℚ
  v_ram_alloc : ℚ
deriving DecidableEq

/-- A visible window as produced by `get_visible_windows` in `vpc.py`. -/
structure VisibleWindow where
  pid : ℤ
  process_name : String
  area : ℕ
deriving DecidableEq

/-- The dict appended to `results` for each scored process in `compute_scores`. -/
structure ScoredTask where
  pid : ℤ
  name : String
  v_cpu_alloc : ℚ
  v_ram_alloc : ℚ
  w_cpu : ℚ
  w_ram : ℚ
  w_wait : ℚ
  w_vis : ℚ
  w_hist : ℚ
  score : ℚ
  action : String
  reason : String
  wait_time_sec : ℚ
deriving DecidableEq

/-- The `session_store` dict threaded through `compute_scores`
(`wait_times`, `usage_history`, `refresh_interval`), maps modelled as
total functions with default value 0 (Python `.get(k, 0)` / `Counter`). -/
structure SessionStore where
  wait_times : ℤ → ℚ
  usage_history : String → ℕ
  refresh_interval : ℚ

/- ===== decision_tree.py ===== -/

/-- Constant `VIRTUAL_RAM_MB = 1024` of `decision_tree.py`. -/
def VIRTUAL_RAM_MB : ℚ := 1024

/-- Constant `VIRTUAL_CPU_UNITS = 100` of `decision_tree.py`. -/
def VIRTUAL_CPU_UNITS : ℚ := 100

/-- Coefficient `ALPHA_CPU = 0.35`. -/
def ALPHA_CPU : ℚ := 0.35
/-- Coefficient `BETA_RAM = 0.35`. -/
def BETA_RAM : ℚ := 0.35
/-- Coefficient `GAMMA_WAIT = 0.15`. -/
def GAMMA_WAIT : ℚ := 0.15
/-- Coefficient `DELTA_VIS = 0.10`. -/
def DELTA_VIS : ℚ := 0.10
/-- Coefficient `EPS_HISTORY = 0.05`. -/
def EPS_HISTORY : ℚ := 0.05

/-- The fixed `IGNORE_LIST` set of `decision_tree.py`. -/
def IGNORE_LIST : List String :=
  ["System Idle Process", "TextInputHost.exe", "svchost.exe",
   "RuntimeBroker.exe", "winlogon.exe", "SearchIndexer.exe",
   "System", "Idle"]

/-- Python's `str.strip()`: drop leading and trailing whitespace. -/
def pyStrip (s : String) : String :=
  ⟨((s.data.dropWhile Char.isWhitespace).reverse.dropWhile Char.isWhitespace).reverse⟩

/-- Function `safe_name` of `decision_tree.py`: strip, substitute `proc_<pid>` when empty. -/
def safe_name (value : String) (pid : ℤ) : String :=
  if pyStrip value = "" then "proc_" ++ toString pid else pyStrip value

/-- Python truthiness fix-up `int(row.get('pid', -1) or -1)`: a pid of 0 is falsy
and becomes -1. -/
def normPid (p : ℤ) : ℤ := if p = 0 then -1 else p

/-- The screen area attributed to a task: exact-pid dict lookup first
(`vis_by_pid`, last write wins), else max area among same-named windows
(`vis_by_name`), else 0. -/
def visArea (vis : List VisibleWindow) (pid : ℤ) (name : String) : ℕ :=
  match (vis.filter (fun v => v.pid = pid)).getLast? with
  | some w => w.area
  | none => ((vis.filter (fun v => v.process_name = name)).map (fun v => v.area)).foldl max 0

/-- The decision thresholds of `compute_scores` (first matching rule wins):
kill at score ≥ 0.75, preempt at score ≥ 0.45, else wait. -/
def classify (score : ℚ) : String × String :=
  if score ≥ 0.75 then ("kill", "High combined virtual CPU+RAM load / visible / frequent")
  else if score ≥ 0.45 then ("preempt", "Moderate virtual load — consider preemption")
  else ("wait", "Low load — keep waiting")

/-- The per-row body of the loop in `compute_scores`: given the current
session store, either skip the row (ignore list) or produce the updated
store and the scored-task dict. -/
def processRow (visible_windows : List VisibleWindow) (row : VirtualTask)
    (st : SessionStore) : SessionStore × Option ScoredTask :=
  let pid := normPid row.pid
  let name := safe_name row.name pid
  if name ∈ IGNORE_LIST then (st, none)
  else
    let v_cpu := row.v_cpu_alloc
    let v_ram := row.v_ram_alloc
    let w_cpu := clamp01 (v_cpu / VIRTUAL_CPU_UNITS)
    let w_ram := clamp01 (v_ram / VIRTUAL_RAM_MB)
    let total_screen_area : ℕ :=
      if visible_windows = [] then 1 else (visible_windows.map (fun v => v.area)).sum
    let vis_area := visArea visible_windows pid name
    let w_vis : ℚ := if 0 < total_screen_area then (vis_area : ℚ) / (total_screen_area : ℚ) else 0
    let usage1 : String → ℕ :=
      if 0 < vis_area ∨ 1 < v_cpu then
        fun n => if n = name then st.usage_history n + 1 else st.usage_history n
      else st.usage_history
    let w_hist : ℚ := min ((usage1 name : ℚ) / 50) 1
    let prev_wait : ℚ :=
      if v_cpu < 5 then st.wait_times pid + st.refresh_interval
      else max 0 (st.wait_times pid - st.refresh_interval)
    let wait1 : ℤ → ℚ := fun p => if p = pid then prev_wait else st.wait_times p
    let w_wait : ℚ := min (prev_wait / 120) 1
    let score := clamp01 (ALPHA_CPU * w_cpu + BETA_RAM * w_ram + GAMMA_WAIT * w_wait +
      DELTA_VIS * w_vis + EPS_HISTORY * w_hist)
    ({ st with wait_times := wait1, usage_history := usage1 },
     some { pid := pid, name := name,
            v_cpu_alloc := round2 v_cpu, v_ram_alloc := round2 v_ram,
            w_cpu := round3 w_cpu, w_ram := round3 w_ram, w_wait := round3 w_wait,
            w_vis := round3 w_vis, w_hist := round3 w_hist, score := round3 score,
            action := (classify score).1, reason := (classify score).2,
            wait_time_sec := round1 (wait1 pid) })

/-- One `foldl` step of the row loop of `compute_scores`, appending to `results`. -/
def scoreStep (visible_windows : List VisibleWindow)
    (acc : SessionStore × List ScoredTask) (row : VirtualTask) :
    SessionStore × List ScoredTask :=
  let p := processRow visible_windows row acc.1
  match p.2 with
  | none => (p.1, acc.2)
  | some r => (p.1, acc.2 ++ [r])

/-- Stable insertion for the descending-by-score sort: an element is placed
before the first element whose score is not greater, so an earlier input
element precedes later ones on ties — the behavior of Python's stable
`list.sort(key=score, reverse=True)`. -/
def insertDesc (a : ScoredTask) : List ScoredTask → List ScoredTask
  | [] => [a]
  | b :: l => if a.score < b.score then b :: insertDesc a l else a :: b :: l

/-- The stable descending-by-`score` sort at the end of `compute_scores`. -/
def sortDesc : List ScoredTask → List ScoredTask
  | [] => []
  | x :: xs => insertDesc x (sortDesc xs)

/-- Function `compute_scores` of `decision_tree.py`: fold the row loop over the batch,
then sort the results by score descending.  Returns the results list and the
mutated session store. -/
def compute_scores (virtual_df : List VirtualTask)
    (visible_windows : List VisibleWindow) (session_store : SessionStore) :
    List ScoredTask × SessionStore :=
  let p := virtual_df.foldl (scoreStep visible_windows) (session_store, [])
  (sortDesc p.2, p.1)

/- ===== vpc.py ===== -/

/-- Function `map_host_to_virtual` of `vpc.py`.  `system_ram_mb` is the external host
fact `psutil.virtual_memory().total / (1024*1024)`; in Python the capacity
arguments default to 512 and 50, and `app.py` passes 1024 and 100. -/
def map_host_to_virtual (df_host : List HostSample)
    (VIRTUAL_RAM_MB VIRTUAL_CPU_UNITS system_ram_mb : ℚ) : List VirtualTask :=
  if df_host = [] then []
  else
    let retained := df_host.filter (fun s => s.memory_percent > 0.02)
    if retained = [] then []
    else
      let cpuSum := (retained.map (fun r => r.cpu_percent)).sum
      let total_cpu := if cpuSum = 0 then 1 else cpuSum
      let host_reference := max (system_ram_mb * 0.5) VIRTUAL_RAM_MB
      let scaling_factor :=
        if 0 < host_reference then min 1 (VIRTUAL_RAM_MB / host_reference) else 1
      retained.map (fun r =>
        let pid := normPid r.pid
        let name := safe_name r.name pid
        let v_cpu0 := if 0 < total_cpu then r.cpu_percent / total_cpu * VIRTUAL_CPU_UNITS else 0
        let v_cpu := max 0 (min v_cpu0 (VIRTUAL_CPU_UNITS * 0.4))
        let v_ram0 := r.memory_percent / 100 * system_ram_mb * scaling_factor
        let v_ram := max 0 (min v_ram0 (VIRTUAL_RAM_MB * 0.9))
        { pid := pid, name := name,
          v_cpu_alloc := round2 v_cpu, v_ram_alloc := round2 v_ram })

/- ===== app.py, step 4 (apply actions) and step 5 (recovery) ===== -/

/-- A row of `df_virtual_adj` in `app.py` (the `adjusted` dicts). -/
structure AdjTask where
  pid : ℤ
  name : String
  v_cpu_alloc : ℚ
  v_ram_alloc : ℚ
  action : String
  reason : String
deriving DecidableEq

/-- Step 4 of the `app.py` loop: preempted tasks are scaled by 0.6, killed and
deadlocked tasks leave the surviving set, wait tasks pass through. -/
def applyActions (decisions : List ScoredTask) : List AdjTask :=
  decisions.filterMap (fun proc =>
    if proc.action = "preempt" then
      some { pid := proc.pid, name := proc.name,
             v_cpu_alloc := round2 (proc.v_cpu_alloc * 0.6),
             v_ram_alloc := round2 (proc.v_ram_alloc * 0.6),
             action := "preempt", reason := proc.reason }
    else if proc.action = "kill" then none
    else if proc.action = "deadlocked" then none
    else
      some { pid := proc.pid, name := proc.name,
             v_cpu_alloc := proc.v_cpu_alloc, v_ram_alloc := proc.v_ram_alloc,
             action := "wait", reason := proc.reason })

/-- Sum `float(df_virtual_adj["v_ram_alloc"].sum())` of the survivors. -/
def totalRam (df : List AdjTask) : ℚ := (df.map (fun t => t.v_ram_alloc)).sum

/-- The uniform RAM compression of `app.py` step 5: when the survivors' RAM
exceeds the budget, every survivor's `v_ram_alloc` is scaled by
`min(1, ram / total)` and re-rounded. -/
def compressStep (ram : ℚ) (df : List AdjTask) : List AdjTask :=
  if 0 < totalRam df ∧ ram < totalRam df then
    df.map (fun t => { t with v_ram_alloc := round2 (t.v_ram_alloc * min 1 (ram / totalRam df)) })
  else df

/-- Insert-or-update for the `score_map` dict comprehension
`{d['pid']: d['score'] for d in decisions}`: first-insertion key order,
last-written value wins. -/
def upsert (m : List (ℤ × ℚ)) (k : ℤ) (v : ℚ) : List (ℤ × ℚ) :=
  if m.any (fun kv => kv.1 = k) then
    m.map (fun kv => if kv.1 = k then (k, v) else kv)
  else m ++ [(k, v)]

/-- The cycle's `score_map`: pid → (rounded) score, one entry per pid. -/
def buildScoreMap (decisions : List ScoredTask) : List (ℤ × ℚ) :=
  decisions.foldl (fun m d => upsert m d.pid d.score) []

/-- Python `min(score_map.keys(), key=...)`: scan the entries keeping the first one
whose value is strictly smaller than the best so far (Python's `min` keeps
the earliest element on ties). -/
def selectMin (best : ℤ × ℚ) : List (ℤ × ℚ) → ℤ × ℚ
  | [] => best
  | kv :: rest => selectMin (if kv.2 < best.2 then kv else best) rest

theorem selectMin_mem (b : ℤ × ℚ) (l : List (ℤ × ℚ)) : selectMin b l ∈ b :: l := by
  induction l generalizing b with
  | nil => simp [selectMin]
  | cons x xs ih =>
    have h := ih (if x.2 < b.2 then x else b)
    rw [selectMin]
    rcases List.mem_cons.1 h with h' | h'
    · rw [h']
      split_ifs <;> simp
    · simp [h']

theorem selectMin_le (b : ℤ × ℚ) (l : List (ℤ × ℚ)) :
    ∀ p ∈ b :: l, (selectMin b l).2 ≤ p.2 := by
  induction l generalizing b with
  | nil => intro p hp; rw [List.mem_singleton] at hp; simp [selectMin, hp]
  | cons x xs ih =>
    intro p hp
    rw [selectMin]
    have hbest : (if x.2 < b.2 then x else b).2 ≤ b.2 ∧ (if x.2 < b.2 then x else b).2 ≤ x.2 := by
      split_ifs with h
      · exact ⟨le_of_lt h, le_refl _⟩
      · exact ⟨le_refl _, le_of_not_lt h⟩
    rcases List.mem_cons.1 hp with h' | h'
    · calc (selectMin (if x.2 < b.2 then x else b) xs).2
          ≤ (if x.2 < b.2 then x else b).2 :=
            ih _ _ (List.mem_cons_self _ _)
        _ ≤ p.2 := by rw [h']; exact hbest.1
    · rcases List.mem_cons.1 h' with h'' | h''
      · calc (selectMin (if x.2 < b.2 then x else b) xs).2
            ≤ (if x.2 < b.2 then x else b).2 := ih _ _ (List.mem_cons_self _ _)
          _ ≤ p.2 := by rw [h'']; exact hbest.2
      · exact ih _ _ (List.mem_cons_of_mem _ h'')

theorem filter_length_lt {α : Type} (l : List α) (p : α → Bool) (a : α)
    (ha : a ∈ l) (hpa : p a = false) : (l.filter p).length < l.length := by
  induction l with
  | nil => cases ha
  | cons x xs ih =>
    rcases List.mem_cons.1 ha with h | h
    · subst h
      rw [List.filter_cons, hpa]
      have := List.length_filter_le p xs
      simpa using Nat.lt_succ_of_le this
    · rw [List.filter_cons]
      split
      · simpa using Nat.succ_lt_succ (ih h)
      · exact Nat.lt_succ_of_lt (ih h)

/-- The eviction loop of `app.py` step 5
(`while total_vram > VIRTUAL_RAM_MB and not df_virtual_adj.empty and score_map:`),
returning the final survivor frame together with the number of iterations
executed.  Each iteration removes the minimum-score pid from both the frame and
the score map. -/
def evictLoop (ram : ℚ) (df : List AdjTask) (m : List (ℤ × ℚ)) : List AdjTask × ℕ :=
  match m with
  | [] => (df, 0)
  | kv :: rest =>
    if ram < totalRam df ∧ df ≠ [] then
      let worst := (selectMin kv rest).1
      let r := evictLoop ram (df.filter (fun t => t.pid ≠ worst))
        ((kv :: rest).filter (fun p => p.1 ≠ worst))
      (r.1, r.2 + 1)
    else (df, 0)
termination_by m.length
decreasing_by
  exact filter_length_lt _ _ (selectMin kv rest) (selectMin_mem kv rest) (by simp)

/-- Step 5 of the `app.py` loop: compression followed, when the budget is
still exceeded, by the eviction loop over the cycle's score map.  Returns the
adjusted survivors and the number of eviction iterations. -/
def recoverFull (ram : ℚ) (decisions : List ScoredTask) : List AdjTask × ℕ :=
  let adj := compressStep ram (applyActions decisions)
  if ram < totalRam adj then evictLoop ram adj (buildScoreMap decisions)
  else (adj, 0)

/-- The survivor set produced by the capacity-recovery step of `app.py`. -/
def recover (ram : ℚ) (decisions : List ScoredTask) : List AdjTask :=
  (recoverFull ram decisions).1

/- ===== generic list-sum helpers ===== -/

theorem sum_map_add_distrib {α : Type} (l : List α) (f g : α → ℚ) :
    (l.map (fun x => f x + g x)).sum = (l.map f).sum + (l.map g).sum := by
  induction l with
  | nil => simp
  | cons x xs ih => simp [ih]; ring

theorem sum_map_mul_right {α : Type} (l : List α) (f : α → ℚ) (c : ℚ) :
    (l.map (fun x => f x * c)).sum = (l.map f).sum * c := by
  induction l with
  | nil => simp
  | cons x xs ih => simp [ih]; ring

theorem sum_map_const {α : Type} (l : List α) (c : ℚ) :
    (l.map (fun _ => c)).sum = l.length * c := by
  induction l with
  | nil => simp
  | cons x xs ih => simp [ih]; ring

theorem mem_le_sum (l : List ℕ) (a : ℕ) (ha : a ∈ l) : a ≤ l.sum := by
  induction l with
  | nil => cases ha
  | cons x xs ih =>
    rcases List.mem_cons.1 ha with h | h
    · subst h; simp [List.sum_cons, Nat.le_add_right]
    · calc a ≤ xs.sum := ih h
        _ ≤ x + xs.sum := Nat.le_add_left _ _

theorem foldl_max_le (l : List ℕ) (b : ℕ) (h : ∀ x ∈ l, x ≤ b) :
    ∀ acc, acc ≤ b → l.foldl max acc ≤ b := by
  induction l with
  | nil => intro acc hacc; simpa using hacc
  | cons x xs ih =>
    intro acc hacc
    rw [List.foldl_cons]
    exact ih (fun y hy => h y (List.mem_cons_of_mem _ hy)) _
      (max_le hacc (h x (List.mem_cons_self _ _)))

/-- The attributed screen area never exceeds the total screen area. -/
theorem visArea_le_sum (vis : List VisibleWindow) (pid : ℤ) (name : String) :
    visArea vis pid name ≤ (vis.map (fun v => v.area)).sum := by
  unfold visArea
  cases hlast : (vis.filter (fun v => v.pid = pid)).getLast? with
  | some w =>
    have hw : w ∈ vis := List.mem_of_mem_filter (List.mem_of_mem_getLast? hlast)
    exact mem_le_sum _ _ (List.mem_map_of_mem (fun v => v.area) hw)
  | none =>
    apply foldl_max_le _ _ _ 0 (Nat.zero_le _)
    intro x hx
    rcases List.mem_map.1 hx with ⟨v, hv, rfl⟩
    exact mem_le_sum _ _ (List.mem_map_of_mem (fun v => v.area) (List.mem_of_mem_filter hv))

theorem visArea_le_total (vis : List VisibleWindow) (pid : ℤ) (name : String) :
    visArea vis pid name ≤ (if vis = [] then 1 else (vis.map (fun v => v.area)).sum) := by
  split_ifs with hnil
  · subst hnil
    simp [visArea]
  · exact visArea_le_sum vis pid name

theorem div_cast_inUnit (a T : ℕ) (h : a ≤ T) :
    inUnit (if 0 < T then (a : ℚ) / (T : ℚ) else 0) := by
  split_ifs with hT
  · refine ⟨by positivity, ?_⟩
    rw [div_le_one (by exact_mod_cast hT)]
    exact_mod_cast h
  · exact ⟨le_refl 0, zero_le_one⟩

/-- The six output fields of a `ScoredTask` that the spec bounds to `[0,1]`. -/
def unitWeights (r : ScoredTask) : Prop :=
  inUnit r.score ∧ inUnit r.w_cpu ∧ inUnit r.w_ram ∧ inUnit r.w_wait ∧
    inUnit r.w_vis ∧ inUnit r.w_hist

theorem processRow_ignored (vis : List VisibleWindow) (row : VirtualTask) (st : SessionStore)
    (h : safe_name row.name (normPid row.pid) ∈ IGNORE_LIST) :
    processRow vis row st = (st, none) := by
  simp only [processRow]
  rw [if_pos h]

theorem processRow_state (vis : List VisibleWindow) (row : VirtualTask) (st : SessionStore)
    (hw : ∀ p, 0 ≤ st.wait_times p) (hr : 0 ≤ st.refresh_interval) :
    (∀ p, 0 ≤ (processRow vis row st).1.wait_times p) ∧
    (processRow vis row st).1.refresh_interval = st.refresh_interval := by
  by_cases hmem : safe_name row.name (normPid row.pid) ∈ IGNORE_LIST
  · rw [processRow_ignored vis row st hmem]
    exact ⟨hw, rfl⟩
  · simp only [processRow]
    rw [if_neg hmem]
    refine ⟨fun p => ?_, rfl⟩
    simp only
    split_ifs with hp hcpu
    · exact add_nonneg (hw _) hr
    · exact le_max_left 0 _
    · exact hw p

theorem processRow_some_bounds (vis : List VisibleWindow) (row : VirtualTask)
    (st : SessionStore) (hw : ∀ p, 0 ≤ st.wait_times p) (hr : 0 ≤ st.refresh_interval) :
    ∀ r, (processRow vis row st).2 = some r → unitWeights r := by
  by_cases hmem : safe_name row.name (normPid row.pid) ∈ IGNORE_LIST
  · rw [processRow_ignored vis row st hmem]
    intro r hr'; cases hr'
  · simp only [processRow]
    rw [if_neg hmem]
    intro r hr'
    simp only [Option.some.injEq] at hr'
    subst hr'
    have hwait : (0 : ℚ) ≤
        (if row.v_cpu_alloc < 5 then
          st.wait_times (normPid row.pid) + st.refresh_interval
         else max 0 (st.wait_times (normPid row.pid) - st.refresh_interval)) := by
      split_ifs with hcpu
      · exact add_nonneg (hw _) hr
      · exact le_max_left 0 _
    refine ⟨?_, ?_, ?_, ?_, ?_, ?_⟩
    · exact round3_inUnit (clamp01_inUnit _)
    · exact round3_inUnit (clamp01_inUnit _)
    · exact round3_inUnit (clamp01_inUnit _)
    · refine round3_inUnit ⟨le_min (div_nonneg hwait (by norm_num)) zero_le_one, min_le_right _ _⟩
    · exact round3_inUnit (div_cast_inUnit _ _ (visArea_le_total vis _ _))
    · exact round3_inUnit ⟨le_min (by positivity) zero_le_one, min_le_right _ _⟩

theorem scoreFold_ok (vis : List VisibleWindow) :
    ∀ (rows : List VirtualTask) (st : SessionStore) (acc : List ScoredTask),
    (∀ p, 0 ≤ st.wait_times p) → 0 ≤ st.refresh_interval →
    (∀ r ∈ acc, unitWeights r) →
    ∀ r ∈ (rows.foldl (scoreStep vis) (st, acc)).2, unitWeights r := by
  intro rows
  induction rows with
  | nil => intro st acc _ _ hacc; simpa using hacc
  | cons row rows ih =>
    intro st acc hw hr hacc
    rw [List.foldl_cons]
    have hst := processRow_state vis row st hw hr
    have hsome := processRow_some_bounds vis row st hw hr
    cases hp : (processRow vis row st).2 with
    | none =>
      have hstep : scoreStep vis (st, acc) row = ((processRow vis row st).1, acc) := by
        simp [scoreStep, hp]
      rw [hstep]
      exact ih _ _ hst.1 (hst.2 ▸ hr) hacc
    | some r0 =>
      have hstep : scoreStep vis (st, acc) row = ((processRow vis row st).1, acc ++ [r0]) := by
        simp [scoreStep, hp]
      rw [hstep]
      refine ih _ _ hst.1 (hst.2 ▸ hr) ?_
      intro r hrmem
      rcases List.mem_append.1 hrmem with h | h
      · exact hacc r h
      · rw [List.mem_singleton] at h
        subst h
        exact hsome _ hp

/- ===== the stable descending sort ===== -/

theorem mem_insertDesc (a x : ScoredTask) (l : List ScoredTask) :
    x ∈ insertDesc a l ↔ x ∈ a :: l := by
  induction l with
  | nil => simp [insertDesc]
  | cons b l ih =>
    rw [insertDesc]
    split_ifs with h
    · rw [List.mem_cons, ih]
      simp [List.mem_cons]
      tauto
    · simp [List.mem_cons]

theorem mem_sortDesc (x : ScoredTask) (l : List ScoredTask) :
    x ∈ sortDesc l ↔ x ∈ l := by
  induction l with
  | nil => simp [sortDesc]
  | cons a l ih =>
    rw [sortDesc, mem_insertDesc, List.mem_cons, ih, List.mem_cons]

theorem insertDesc_sorted (a : ScoredTask) (l : List ScoredTask)
    (h : List.Pairwise (fun x y => y.score ≤ x.score) l) :
    List.Pairwise (fun x y => y.score ≤ x.score) (insertDesc a l) := by
  induction l with
  | nil => simp [insertDesc]
  | cons b l ih =>
    rw [List.pairwise_cons] at h
    rw [insertDesc]
    split_ifs with hab
    · rw [List.pairwise_cons]
      refine ⟨fun y hy => ?_, ih h.2⟩
      rcases List.mem_cons.1 ((mem_insertDesc a y l).1 hy) with h' | h'
      · rw [h']; exact le_of_lt hab
      · exact h.1 y h'
    · rw [List.pairwise_cons]
      refine ⟨fun y hy => ?_, List.pairwise_cons.2 h⟩
      rcases List.mem_cons.1 hy with h' | h'
      · rw [h']; exact le_of_not_lt hab
      · exact le_trans (h.1 y h') (le_of_not_lt hab)

theorem sortDesc_sorted (l : List ScoredTask) :
    List.Pairwise (fun x y => y.score ≤ x.score) (sortDesc l) := by
  induction l with
  | nil => simp [sortDesc]
  | cons a l ih => exact insertDesc_sorted a (sortDesc l) ih

theorem filter_insertDesc (a : ScoredTask) (l : List ScoredTask) (s : ℚ) :
    (insertDesc a l).filter (fun r => decide (r.score = s)) =
      ((a :: l).filter (fun r => decide (r.score = s))) := by
  induction l with
  | nil => rfl
  | cons b l ih =>
    rw [insertDesc]
    split_ifs with hab
    · by_cases hbs : b.score = s
      · by_cases has : a.score = s
        · exact absurd (has.trans hbs.symm) (ne_of_lt hab)
        · simp [List.filter_cons, hbs, has, ih]
      · by_cases has : a.score = s
        · simp [List.filter_cons, hbs, has, ih]
        · simp [List.filter_cons, hbs, has, ih]
    · rfl

theorem filter_sortDesc (l : List ScoredTask) (s : ℚ) :
    (sortDesc l).filter (fun r => decide (r.score = s)) =
      l.filter (fun r => decide (r.score = s)) := by
  induction l with
  | nil => rfl
  | cons a l ih =>
    rw [sortDesc, filter_insertDesc, List.filter_cons, List.filter_cons, ih]

/- ===== recovery-engine lemmas ===== -/

/-- A key is present in the association-list model of a Python dict. -/
def keyIn (m : List (ℤ × ℚ)) (k : ℤ) : Prop := ∃ kv ∈ m, kv.1 = k

theorem keyIn_upsert_self (m : List (ℤ × ℚ)) (k : ℤ) (v : ℚ) : keyIn (upsert m k v) k := by
  unfold upsert
  split_ifs with h
  · rcases List.any_eq_true.1 h with ⟨kv, hkv, hk⟩
    have hk' : kv.1 = k := of_decide_eq_true hk
    exact ⟨(k, v), List.mem_map.2 ⟨kv, hkv, by simp [hk']⟩, rfl⟩
  · exact ⟨(k, v), List.mem_append.2 (Or.inr (List.mem_singleton.2 rfl)), rfl⟩

theorem keyIn_upsert_mono (m : List (ℤ × ℚ)) (k k' : ℤ) (v : ℚ) (h : keyIn m k) :
    keyIn (upsert m k' v) k := by
  rcases h with ⟨kv, hkv, hk⟩
  unfold upsert
  split_ifs with hany
  · by_cases hk' : kv.1 = k'
    · exact ⟨(k', v), List.mem_map.2 ⟨kv, hkv, by simp [hk']⟩, hk' ▸ hk⟩
    · exact ⟨kv, List.mem_map.2 ⟨kv, hkv, by simp [hk']⟩, hk⟩
  · exact ⟨kv, List.mem_append.2 (Or.inl hkv), hk⟩

theorem keyIn_buildScoreMap_aux (ds : List ScoredTask) :
    ∀ (m : List (ℤ × ℚ)),
      (∀ k, keyIn m k → keyIn (ds.foldl (fun m d => upsert m d.pid d.score) m) k) ∧
      (∀ d ∈ ds, keyIn (ds.foldl (fun m d => upsert m d.pid d.score) m) d.pid) := by
  induction ds with
  | nil =>
    intro m
    exact ⟨fun k h => h, fun d hd => absurd hd (List.not_mem_nil d)⟩
  | cons d0 ds ih =>
    intro m
    constructor
    · intro k h
      rw [List.foldl_cons]
      exact (ih _).1 k (keyIn_upsert_mono _ _ _ _ h)
    · intro d hd
      rw [List.foldl_cons]
      rcases List.mem_cons.1 hd with h | h
      · subst h
        exact (ih _).1 d.pid (keyIn_upsert_self m d.pid d.score)
      · exact (ih _).2 d h

theorem keyIn_buildScoreMap (ds : List ScoredTask) (d : ScoredTask) (hd : d ∈ ds) :
    keyIn (buildScoreMap ds) d.pid := (keyIn_buildScoreMap_aux ds []).2 d hd

theorem applyActions_pid (ds : List ScoredTask) (t : AdjTask) (ht : t ∈ applyActions ds) :
    ∃ d ∈ ds, d.pid = t.pid := by
  unfold applyActions at ht
  rcases List.mem_filterMap.1 ht with ⟨d, hd, hmap⟩
  refine ⟨d, hd, ?_⟩
  by_cases h1 : d.action = "preempt"
  · rw [if_pos h1] at hmap
    exact congrArg AdjTask.pid (Option.some.inj hmap)
  · rw [if_neg h1] at hmap
    by_cases h2 : d.action = "kill"
    · rw [if_pos h2] at hmap; cases hmap
    · rw [if_neg h2] at hmap
      by_cases h3 : d.action = "deadlocked"
      · rw [if_pos h3] at hmap; cases hmap
      · rw [if_neg h3] at hmap
        exact congrArg AdjTask.pid (Option.some.inj hmap)

theorem compressStep_pid (ram : ℚ) (df : List AdjTask) (t : AdjTask)
    (ht : t ∈ compressStep ram df) : ∃ u ∈ df, u.pid = t.pid := by
  unfold compressStep at ht
  split_ifs at ht
  · rcases List.mem_map.1 ht with ⟨u, hu, rfl⟩
    exact ⟨u, hu, rfl⟩
  · exact ⟨t, ht, rfl⟩

theorem evictLoop_cons (ram : ℚ) (df : List AdjTask) (kv : ℤ × ℚ) (rest : List (ℤ × ℚ))
    (hcond : ram < totalRam df ∧ df ≠ []) :
    evictLoop ram df (kv :: rest) =
      ((evictLoop ram (df.filter (fun t => t.pid ≠ (selectMin kv rest).1))
          ((kv :: rest).filter (fun p => p.1 ≠ (selectMin kv rest).1))).1,
       (evictLoop ram (df.filter (fun t => t.pid ≠ (selectMin kv rest).1))
          ((kv :: rest).filter (fun p => p.1 ≠ (selectMin kv rest).1))).2 + 1) := by
  rw [evictLoop, if_pos hcond]

theorem evictLoop_stop (ram : ℚ) (df : List AdjTask) (kv : ℤ × ℚ) (rest : List (ℤ × ℚ))
    (hcond : ¬(ram < totalRam df ∧ df ≠ [])) :
    evictLoop ram df (kv :: rest) = (df, 0) := by
  rw [evictLoop, if_neg hcond]

theorem evictLoop_nil (ram : ℚ) (df : List AdjTask) : evictLoop ram df [] = (df, 0) := by
  rw [evictLoop]

theorem evictLoop_empty_or_le_aux (ram : ℚ) :
    ∀ (n : ℕ) (df : List AdjTask) (m : List (ℤ × ℚ)), m.length ≤ n →
    (∀ t ∈ df, keyIn m t.pid) →
    (evictLoop ram df m).1 = [] ∨ totalRam (evictLoop ram df m).1 ≤ ram := by
  intro n
  induction n with
  | zero =>
    intro df m hlen hcov
    have hm : m = [] := List.eq_nil_of_length_eq_zero (Nat.le_zero.1 hlen)
    subst hm
    rw [evictLoop_nil]
    cases df with
    | nil => left; rfl
    | cons t ts =>
      rcases hcov t (List.mem_cons_self _ _) with ⟨kv, hkv, _⟩
      cases hkv
  | succ n ih =>
    intro df m hlen hcov
    cases m with
    | nil =>
      rw [evictLoop_nil]
      cases df with
      | nil => left; rfl
      | cons t ts =>
        rcases hcov t (List.mem_cons_self _ _) with ⟨kv, hkv, _⟩
        cases hkv
    | cons kv rest =>
      by_cases hcond : ram < totalRam df ∧ df ≠ []
      · rw [evictLoop_cons ram df kv rest hcond]
        have hlt : ((kv :: rest).filter (fun p => p.1 ≠ (selectMin kv rest).1)).length
            < (kv :: rest).length :=
          filter_length_lt _ _ (selectMin kv rest) (selectMin_mem kv rest) (by simp)
        refine ih _ _ (by omega) ?_
        intro t ht
        have ht' := List.mem_filter.1 ht
        rcases hcov t (List.mem_of_mem_filter ht) with ⟨kv', hkv', hk⟩
        refine ⟨kv', List.mem_filter.2 ⟨hkv', ?_⟩, hk⟩
        rw [hk]
        exact ht'.2
      · rw [evictLoop_stop ram df kv rest hcond]
        rcases not_and_or.1 hcond with h | h
        · right; exact le_of_not_lt h
        · left; exact not_not.1 h

theorem evictLoop_empty_or_le (ram : ℚ) (df : List AdjTask) (m : List (ℤ × ℚ))
    (hcov : ∀ t ∈ df, keyIn m t.pid) :
    (evictLoop ram df m).1 = [] ∨ totalRam (evictLoop ram df m).1 ≤ ram :=
  evictLoop_empty_or_le_aux ram m.length df m (le_refl _) hcov

theorem evictLoop_steps_le_aux (ram : ℚ) :
    ∀ (n : ℕ) (df : List AdjTask) (m : List (ℤ × ℚ)), m.length ≤ n →
    (evictLoop ram df m).2 ≤ m.length := by
  intro n
  induction n with
  | zero =>
    intro df m hlen
    have hm : m = [] := List.eq_nil_of_length_eq_zero (Nat.le_zero.1 hlen)
    subst hm
    rw [evictLoop_nil]
    exact Nat.zero_le _
  | succ n ih =>
    intro df m hlen
    cases m with
    | nil =>
      rw [evictLoop_nil]
      exact Nat.zero_le _
    | cons kv rest =>
      by_cases hcond : ram < totalRam df ∧ df ≠ []
      · rw [evictLoop_cons ram df kv rest hcond]
        have hlt : ((kv :: rest).filter (fun p => p.1 ≠ (selectMin kv rest).1)).length
            < (kv :: rest).length :=
          filter_length_lt _ _ (selectMin kv rest) (selectMin_mem kv rest) (by simp)
        have hrec := ih (df.filter (fun t => t.pid ≠ (selectMin kv rest).1))
          ((kv :: rest).filter (fun p => p.1 ≠ (selectMin kv rest).1)) (by omega)
        simp only
        omega
      · rw [evictLoop_stop ram df kv rest hcond]
        exact Nat.zero_le _

theorem evictLoop_steps_le (ram : ℚ) (df : List AdjTask) (m : List (ℤ × ℚ)) :
    (evictLoop ram df m).2 ≤ m.length :=
  evictLoop_steps_le_aux ram m.length df m (le_refl _)

theorem upsert_length_le (m : List (ℤ × ℚ)) (k : ℤ) (v : ℚ) :
    (upsert m k v).length ≤ m.length + 1 := by
  unfold upsert
  split_ifs
  · rw [List.length_map]
    omega
  · rw [List.length_append]
    simp

theorem buildScoreMap_length_aux (ds : List ScoredTask) :
    ∀ m : List (ℤ × ℚ),
      (ds.foldl (fun m d => upsert m d.pid d.score) m).length ≤ m.length + ds.length := by
  induction ds with
  | nil => intro m; simp
  | cons d ds ih =>
    intro m
    rw [List.foldl_cons]
    calc (ds.foldl (fun m d => upsert m d.pid d.score) (upsert m d.pid d.score)).length
        ≤ (upsert m d.pid d.score).length + ds.length := ih _
      _ ≤ m.length + 1 + ds.length := by
          have := upsert_length_le m d.pid d.score
          omega
      _ = m.length + (d :: ds).length := by simp; omega

theorem buildScoreMap_length (ds : List ScoredTask) :
    (buildScoreMap ds).length ≤ ds.length := by
  have := buildScoreMap_length_aux ds []
  simpa [buildScoreMap] using this

/-- A fresh session store: empty wait map, empty usage counter, a 3-second
refresh interval (the `app.py` default slider value). -/
def initStore : SessionStore :=
  { wait_times := fun _ => 0, usage_history := fun _ => 0, refresh_interval := 3 }

/- ===== Claim theorems ===== -/

/-- C3: for every batch of host samples with nonnegative `cpu_percent`
(and a nonnegative CPU budget), the sum of `v_cpu_alloc` over the
`VirtualTask`s returned by `map_host_to_virtual` is at most the CPU budget
plus the per-task rounding epsilon `1/200` (from `round(·, 2)`), the
zero-total-CPU fallback-divisor case included. -/
theorem mapper_cpu_within_budget (df_host : List HostSample) (vram vcpu sysram : ℚ)
    (hC : 0 ≤ vcpu) (hcpu : ∀ s ∈ df_host, 0 ≤ s.cpu_percent) :
    ((map_host_to_virtual df_host vram vcpu sysram).map (fun t => t.v_cpu_alloc)).sum
      ≤ vcpu + ((map_host_to_virtual df_host vram vcpu sysram).length : ℚ) * (1/200) := by
  by_cases h0 : df_host = []
  · subst h0
    simp only [map_host_to_virtual, if_pos rfl]
    simpa using hC
  · simp only [map_host_to_virtual]
    rw [if_neg h0]
    set retained := df_host.filter (fun s => s.memory_percent > 0.02) with hret
    by_cases h1 : retained = []
    · rw [if_pos h1]
      simpa using hC
    · rw [if_neg h1]
      set cpuSum := (retained.map (fun r => r.cpu_percent)).sum with hcs
      set total := if cpuSum = 0 then 1 else cpuSum with htot
      have hcpuR : ∀ s ∈ retained, 0 ≤ s.cpu_percent := fun s hs =>
        hcpu s (List.mem_of_mem_filter hs)
      have hcs0 : 0 ≤ cpuSum := by
        rw [hcs]
        apply List.sum_nonneg
        intro x hx
        rcases List.mem_map.1 hx with ⟨s, hs, rfl⟩
        exact hcpuR s hs
      have htotal : 0 < total := by
        rw [htot]
        split_ifs with h
        · norm_num
        · exact lt_of_le_of_ne hcs0 (Ne.symm h)
      rw [List.map_map, List.length_map]
      have hpt : ∀ r ∈ retained,
          round2 (max 0 (min (if 0 < total then r.cpu_percent / total * vcpu else 0)
              (vcpu * 0.4)))
            ≤ r.cpu_percent * (vcpu / total) + 1/200 := by
        intro r hrr
        have hraw : (if 0 < total then r.cpu_percent / total * vcpu else 0)
            = r.cpu_percent * (vcpu / total) := by
          rw [if_pos htotal]
          ring
        rw [hraw]
        have hnn : 0 ≤ r.cpu_percent * (vcpu / total) :=
          mul_nonneg (hcpuR r hrr) (div_nonneg hC htotal.le)
        have h1 : max 0 (min (r.cpu_percent * (vcpu / total)) (vcpu * 0.4))
            ≤ r.cpu_percent * (vcpu / total) :=
          max_le hnn (min_le_left _ _)
        calc round2 (max 0 (min (r.cpu_percent * (vcpu / total)) (vcpu * 0.4)))
            ≤ max 0 (min (r.cpu_percent * (vcpu / total)) (vcpu * 0.4)) + 1/200 :=
              round2_le _
          _ ≤ r.cpu_percent * (vcpu / total) + 1/200 := by linarith
      calc (retained.map (fun r =>
              round2 (max 0 (min (if 0 < total then r.cpu_percent / total * vcpu else 0)
                (vcpu * 0.4))))).sum
          ≤ (retained.map (fun r => r.cpu_percent * (vcpu / total) + 1/200)).sum :=
            List.sum_le_sum hpt
        _ = (retained.map (fun r => r.cpu_percent * (vcpu / total))).sum
              + (retained.map (fun _ => (1/200 : ℚ))).sum := sum_map_add_distrib _ _ _
        _ = cpuSum * (vcpu / total) + (retained.length : ℚ) * (1/200) := by
            rw [sum_map_mul_right, sum_map_const, ← hcs]
        _ ≤ vcpu + (retained.length : ℚ) * (1/200) := by
            have hfinal : cpuSum * (vcpu / total) ≤ vcpu := by
              rw [htot]
              split_ifs with h
              · rw [h]
                simpa using hC
              · rw [mul_comm, div_mul_cancel₀ _ h]
            linarith

/-- Witness for C3: a concrete two-sample batch on the low-end preset. -/
theorem mapper_cpu_within_budget_witness :
    (0 : ℚ) ≤ 50 ∧
    (∀ s ∈ [(⟨1, "a", 10, 50⟩ : HostSample), ⟨2, "b", 30, 50⟩], 0 ≤ s.cpu_percent) ∧
    ((map_host_to_virtual [⟨1, "a", 10, 50⟩, ⟨2, "b", 30, 50⟩] 512 50 2048).map
        (fun t => t.v_cpu_alloc)).sum
      ≤ 50 + ((map_host_to_virtual [⟨1, "a", 10, 50⟩, ⟨2, "b", 30, 50⟩] 512 50 2048).length : ℚ)
          * (1/200) := by
  refine ⟨by norm_num, ?_, ?_⟩
  · intro s hs
    fin_cases hs <;> norm_num
  · exact mapper_cpu_within_budget _ _ _ _ (by norm_num)
      (by intro s hs; fin_cases hs <;> norm_num)

/-- C2: after the capacity-recovery step of `app.py` (preemption scaling,
removal of kill/deadlocked tasks, uniform RAM compression, then one-at-a-time
eviction), either the survivor set is empty or the survivors' total
`v_ram_alloc` is at most the RAM budget — proved exactly, hence in particular
within rounding epsilon — for every classified batch and every budget,
including the app's `VIRTUAL_RAM_MB`. -/
theorem recovery_ram_invariant (ram : ℚ) (decisions : List ScoredTask) :
    recover ram decisions = [] ∨ totalRam (recover ram decisions) ≤ ram := by
  unfold recover recoverFull
  simp only
  split_ifs with h
  · apply evictLoop_empty_or_le
    intro t ht
    rcases compressStep_pid _ _ _ ht with ⟨u, hu, hpid⟩
    rcases applyActions_pid _ _ hu with ⟨d, hd, hdp⟩
    have hk := keyIn_buildScoreMap decisions d hd
    rw [hdp, hpid] at hk
    exact hk
  · right
    exact le_of_not_lt h

/-- C6: the eviction loop terminates for every input and every budget
(including a pathological `ram = 0`): each iteration strictly shrinks the
candidate pid map, and the number of iterations is bounded by the number of
scored tasks. -/
theorem eviction_loop_bounded (ram : ℚ) (decisions : List ScoredTask) :
    (recoverFull ram decisions).2 ≤ decisions.length ∧
    ∀ (kv : ℤ × ℚ) (rest : List (ℤ × ℚ)),
      ((kv :: rest).filter (fun p => p.1 ≠ (selectMin kv rest).1)).length <
        (kv :: rest).length := by
  constructor
  · unfold recoverFull
    simp only
    split_ifs with h
    · calc (evictLoop ram (compressStep ram (applyActions decisions))
            (buildScoreMap decisions)).2
          ≤ (buildScoreMap decisions).length := evictLoop_steps_le _ _ _
        _ ≤ decisions.length := buildScoreMap_length _
    · exact Nat.zero_le _
  · intro kv rest
    exact filter_length_lt _ _ (selectMin kv rest) (selectMin_mem kv rest) (by simp)

/-- C9: each eviction-loop iteration removes the pid with the *minimum*
score in the cycle's score map (not the maximum): the selected entry belongs
to the map, its score is a lower bound for every entry, and one loop step
recurses on the frame and map with exactly that pid removed. -/
theorem eviction_removes_min_score (ram : ℚ) (df : List AdjTask) (kv : ℤ × ℚ)
    (rest : List (ℤ × ℚ)) (h : ram < totalRam df ∧ df ≠ []) :
    selectMin kv rest ∈ kv :: rest ∧
    (∀ p ∈ kv :: rest, (selectMin kv rest).2 ≤ p.2) ∧
    evictLoop ram df (kv :: rest) =
      ((evictLoop ram (df.filter (fun t => t.pid ≠ (selectMin kv rest).1))
          ((kv :: rest).filter (fun p => p.1 ≠ (selectMin kv rest).1))).1,
       (evictLoop ram (df.filter (fun t => t.pid ≠ (selectMin kv rest).1))
          ((kv :: rest).filter (fun p => p.1 ≠ (selectMin kv rest).1))).2 + 1) :=
  ⟨selectMin_mem kv rest, selectMin_le kv rest, evictLoop_cons ram df kv rest h⟩

/-- Witness for C9: a concrete over-budget survivor frame and score map. -/
theorem eviction_removes_min_score_witness :
    ((512 : ℚ) < totalRam [⟨1, "a", (1:ℚ), 600, "wait", "x"⟩] ∧
      ([(⟨1, "a", (1:ℚ), 600, "wait", "x"⟩ : AdjTask)]) ≠ []) ∧
    ∀ p ∈ ((1 : ℤ), (3/10 : ℚ)) :: [((2 : ℤ), (1/2 : ℚ))],
      (selectMin ((1 : ℤ), (3/10 : ℚ)) [((2 : ℤ), (1/2 : ℚ))]).2 ≤ p.2 := by
  have h : (512 : ℚ) < totalRam [⟨1, "a", (1:ℚ), 600, "wait", "x"⟩] ∧
      ([(⟨1, "a", (1:ℚ), 600, "wait", "x"⟩ : AdjTask)]) ≠ [] := by
    constructor
    · norm_num [totalRam]
    · simp
  exact ⟨h, (eviction_removes_min_score 512 _ _ _ h).2.1⟩

/-- C7: a task whose (safe) name is in the fixed ignore list is skipped
entirely by `compute_scores`: both the result list and the final session
store (wait accumulators and usage counters included) are exactly those of
the batch with the task removed, wherever the task sits in the batch. -/
theorem ignored_task_no_effect (xs ys : List VirtualTask) (t : VirtualTask)
    (vis : List VisibleWindow) (st : SessionStore)
    (h : safe_name t.name (normPid t.pid) ∈ IGNORE_LIST) :
    compute_scores (xs ++ t :: ys) vis st = compute_scores (xs ++ ys) vis st := by
  unfold compute_scores
  have hstep : ∀ acc : SessionStore × List ScoredTask, scoreStep vis acc t = acc := by
    intro acc
    simp [scoreStep, processRow_ignored vis t acc.1 h]
  rw [List.foldl_append, List.foldl_append, List.foldl_cons, hstep]

/-- Witness for C7: a concrete `"System"` task in a singleton batch. -/
theorem ignored_task_no_effect_witness :
    safe_name ("System") (normPid 7) ∈ IGNORE_LIST ∧
    compute_scores ([] ++ (⟨7, "System", 2, 3⟩ : VirtualTask) :: []) [] initStore =
      compute_scores ([] ++ []) [] initStore := by
  have h : safe_name ("System") (normPid 7) ∈ IGNORE_LIST := by decide
  exact ⟨h, ignored_task_no_effect [] [] ⟨7, "System", 2, 3⟩ [] initStore h⟩

/-- C8: for an empty telemetry batch the mapper returns the empty
sequence (not an error), `compute_scores` returns an empty result list, and
recovery over that empty result is empty as well. -/
theorem empty_batch_empty_everywhere (vram vcpu sysram ram : ℚ)
    (vis : List VisibleWindow) (st : SessionStore) :
    map_host_to_virtual [] vram vcpu sysram = [] ∧
    (compute_scores [] vis st).1 = [] ∧
    recover ram (compute_scores [] vis st).1 = [] := by
  refine ⟨rfl, rfl, ?_⟩
  show recover ram [] = []
  simp only [recover, recoverFull, applyActions, List.filterMap_nil]
  have hc : compressStep ram [] = [] := by simp [compressStep, totalRam]
  rw [hc]
  simp only [totalRam, List.map_nil, List.sum_nil, buildScoreMap, List.foldl_nil]
  split_ifs with h
  · rw [evictLoop_nil]
  · rfl

/-- C4: for every task batch, visibility list, and session state
satisfying the documented invariants (wait accumulators nonnegative, usage
counts nonnegative — enforced here by the `ℕ` counter type — and a positive
refresh interval), every `ScoredTask` produced by `compute_scores` has its
`score` and all five weight fields in `[0, 1]`. -/
theorem compute_scores_weights_in_unit (virtual_df : List VirtualTask)
    (vis : List VisibleWindow) (st : SessionStore)
    (hw : ∀ p, 0 ≤ st.wait_times p) (hr : 0 < st.refresh_interval) :
    ∀ r ∈ (compute_scores virtual_df vis st).1, unitWeights r := by
  intro r hrm
  unfold compute_scores at hrm
  simp only at hrm
  rw [mem_sortDesc] at hrm
  exact scoreFold_ok vis virtual_df st [] hw (le_of_lt hr)
    (by intro x hx; cases hx) r hrm

/-- Witness for C4: the weight bounds hold on a concrete heavy task. -/
theorem compute_scores_weights_in_unit_witness :
    (∀ p, 0 ≤ initStore.wait_times p) ∧ 0 < initStore.refresh_interval ∧
    ∀ r ∈ (compute_scores [⟨1, "W", 45, 480⟩] [] initStore).1, unitWeights r :=
  ⟨fun _ => le_refl 0, by norm_num [initStore],
   compute_scores_weights_in_unit _ _ _ (fun _ => le_refl 0) (by norm_num [initStore])⟩

/-- C10: the descending-by-score sort of `compute_scores` is stable:
filtering the output at any (rounded) score value yields exactly the
corresponding subsequence of the unsorted fold results, which are in
input-batch order; moreover the output is sorted descending by score. -/
theorem compute_scores_sort_stable (virtual_df : List VirtualTask)
    (vis : List VisibleWindow) (st : SessionStore) (s : ℚ) :
    ((compute_scores virtual_df vis st).1.filter (fun r => decide (r.score = s)) =
      ((virtual_df.foldl (scoreStep vis) (st, [])).2.filter
        (fun r => decide (r.score = s)))) ∧
    List.Pairwise (fun a b => b.score ≤ a.score) (compute_scores virtual_df vis st).1 := by
  constructor
  · show (sortDesc _).filter _ = _
    exact filter_sortDesc _ s
  · show List.Pairwise _ (sortDesc _)
    exact sortDesc_sorted _

/- ===== Scenario A (claim C5) ===== -/

/-- C5 counterexample: under the constants actually hard-coded in
`decision_tree.py` (`VIRTUAL_RAM_MB = 1024`, `VIRTUAL_CPU_UNITS = 100`, kill
threshold 0.75), the single fresh task with `v_cpu_alloc = 45` and
`v_ram_alloc = 480` gets `w_cpu = 0.45` — not 0.9 — and action `"wait"` —
not `"kill"` — refuting the claim at this concrete input. -/
theorem scenarioA_counterexample :
    ((compute_scores [⟨1, "BigTask", 45, 480⟩] [] initStore).1.map
      (fun r => (r.w_cpu, r.action))) = [(9/20, "wait")] ∧
    ¬ ((compute_scores [⟨1, "BigTask", 45, 480⟩] [] initStore).1.map
      (fun r => (r.w_cpu, r.action))) = [(9/10, "kill")] := by
  have hname : safe_name ("BigTask") (normPid 1) = "BigTask" := by decide
  have hmem : "BigTask" ∉ IGNORE_LIST := by decide
  have heval : ((compute_scores [⟨1, "BigTask", 45, 480⟩] [] initStore).1.map
      (fun r => (r.w_cpu, r.action))) = [(9/20, "wait")] := by
    simp only [compute_scores, scoreStep, processRow, List.foldl, sortDesc, insertDesc,
      visArea, classify, initStore, hname, normPid]
    norm_num [clamp01, VIRTUAL_CPU_UNITS, VIRTUAL_RAM_MB, ALPHA_CPU, BETA_RAM, GAMMA_WAIT,
      DELTA_VIS, EPS_HISTORY, hmem, round3, round2, round1, pyRound, pyRoundInt,
      List.filter, List.getLast?]
  refine ⟨heval, ?_⟩
  rw [heval]
  intro hcontra
  have := List.cons.inj hcontra
  have h1 : ((9:ℚ)/20, "wait") = ((9:ℚ)/10, "kill") := this.1
  have h2 : (9:ℚ)/20 = 9/10 := congrArg Prod.fst h1
  norm_num at h2

/-- C5 amended: what the code actually does on Scenario A's task: from a
fresh store, the task `(v_cpu_alloc = 45, v_ram_alloc = 480)` gets
`w_cpu = 0.45`, `w_ram = 0.469`, score `0.323` — below the code's preempt
threshold 0.45, let alone its kill threshold 0.75 — and action `"wait"`. -/
theorem scenarioA_amended :
    ((compute_scores [⟨1, "BigTask", 45, 480⟩] [] initStore).1.map
      (fun r => (r.w_cpu, r.w_ram, r.score, r.action)))
      = [(9/20, 469/1000, 323/1000, "wait")] ∧ (323/1000 : ℚ) < 0.45 := by
  constructor
  · have hname : safe_name ("BigTask") (normPid 1) = "BigTask" := by decide
    have hmem : "BigTask" ∉ IGNORE_LIST := by decide
    simp only [compute_scores, scoreStep, processRow, List.foldl, sortDesc, insertDesc,
      visArea, classify, initStore, hname, normPid]
    norm_num [clamp01, VIRTUAL_CPU_UNITS, VIRTUAL_RAM_MB, ALPHA_CPU, BETA_RAM, GAMMA_WAIT,
      DELTA_VIS, EPS_HISTORY, hmem, round3, round2, round1, pyRound, pyRoundInt,
      List.filter, List.getLast?]
  · norm_num

/- ===== Scenario B (claim C1) ===== -/

/-- The Scenario B task: held at `v_cpu_alloc = 0.5` (below the 5-unit idle
threshold), no RAM, across cycles. -/
def scenarioB_task : VirtualTask := ⟨1, "StuckApp", 1/2, 0⟩

/-- The session store after `k` scoring cycles of the Scenario B task
(refresh interval 3 s, starting from a fresh store). -/
def cycleN : ℕ → SessionStore
  | 0 => initStore
  | k+1 => (compute_scores [scenarioB_task] [] (cycleN k)).2

theorem scenarioB_step (st : SessionStore) :
    ((compute_scores [scenarioB_task] [] st).2.wait_times 1
        = st.wait_times 1 + st.refresh_interval) ∧
    ((compute_scores [scenarioB_task] [] st).2.usage_history = st.usage_history) ∧
    ((compute_scores [scenarioB_task] [] st).2.refresh_interval = st.refresh_interval) := by
  have hpid : normPid 1 = 1 := by decide
  have hname : safe_name ("StuckApp") 1 = "StuckApp" := by decide
  have hmem : "StuckApp" ∉ IGNORE_LIST := by decide
  simp only [compute_scores, scoreStep, processRow, List.foldl, scenarioB_task, hpid, hname]
  norm_num [hmem, visArea, List.filter, List.getLast?]

theorem cycleN_spec (k : ℕ) :
    (cycleN k).wait_times 1 = 3 * (k : ℚ) ∧
    (cycleN k).usage_history = initStore.usage_history ∧
    (cycleN k).refresh_interval = 3 := by
  induction k with
  | zero =>
    refine ⟨?_, rfl, rfl⟩
    norm_num [cycleN, initStore]
  | succ k ih =>
    obtain ⟨hw, hu, hr⟩ := ih
    have hs := scenarioB_step (cycleN k)
    refine ⟨?_, ?_, ?_⟩
    · show (compute_scores [scenarioB_task] [] (cycleN k)).2.wait_times 1 = _
      rw [hs.1, hw, hr]
      push_cast
      ring
    · show (compute_scores [scenarioB_task] [] (cycleN k)).2.usage_history = _
      rw [hs.2.1, hu]
    · show (compute_scores [scenarioB_task] [] (cycleN k)).2.refresh_interval = _
      rw [hs.2.2, hr]

theorem classify_ne_deadlocked (s : ℚ) : (classify s).1 ≠ "deadlocked" := by
  unfold classify
  split_ifs <;> decide

theorem processRow_action_ne (vis : List VisibleWindow) (row : VirtualTask)
    (st : SessionStore) (r : ScoredTask) (h : (processRow vis row st).2 = some r) :
    r.action ≠ "deadlocked" := by
  by_cases hmem : safe_name row.name (normPid row.pid) ∈ IGNORE_LIST
  · rw [processRow_ignored vis row st hmem] at h
    cases h
  · simp only [processRow] at h
    rw [if_neg hmem] at h
    simp only [Option.some.injEq] at h
    subst h
    exact classify_ne_deadlocked _

theorem scoreFold_action (vis : List VisibleWindow) :
    ∀ (rows : List VirtualTask) (st : SessionStore) (acc : List ScoredTask),
    (∀ r ∈ acc, r.action ≠ "deadlocked") →
    ∀ r ∈ (rows.foldl (scoreStep vis) (st, acc)).2, r.action ≠ "deadlocked" := by
  intro rows
  induction rows with
  | nil => intro st acc hacc; simpa using hacc
  | cons row rows ih =>
    intro st acc hacc
    rw [List.foldl_cons]
    cases hp : (processRow vis row st).2 with
    | none =>
      have hstep : scoreStep vis (st, acc) row = ((processRow vis row st).1, acc) := by
        simp [scoreStep, hp]
      rw [hstep]
      exact ih _ _ hacc
    | some r0 =>
      have hstep : scoreStep vis (st, acc) row = ((processRow vis row st).1, acc ++ [r0]) := by
        simp [scoreStep, hp]
      rw [hstep]
      refine ih _ _ ?_
      intro r hrmem
      rcases List.mem_append.1 hrmem with h | h
      · exact hacc r h
      · rw [List.mem_singleton] at h
        subst h
        exact processRow_action_ne vis row st _ hp

/-- C1 (evaluation of the code at the claim's own scenario): the
`decision_tree.py` classifier has no `deadlocked` branch at all — for every
input its output actions filter to nothing on `"deadlocked"` — and in the
spec's Scenario B (task held at `v_cpu_alloc = 0.5` for 24 cycles at
`refresh_interval = 3`), the wait accumulator does reach 72 s but
`w_wait = 72/120 = 0.6` (the code saturates at 120 s, not the spec's 90 s)
and the task is classified `"wait"`, not `"deadlocked"`. -/
theorem scenarioB_not_deadlocked :
    ((compute_scores [scenarioB_task] [] (cycleN 23)).1.map
      (fun r => (r.action, r.wait_time_sec, r.w_wait))) = [("wait", 72, 3/5)] ∧
    ∀ (df : List VirtualTask) (vis : List VisibleWindow) (st : SessionStore),
      (compute_scores df vis st).1.filter
        (fun r => decide (r.action = "deadlocked")) = [] := by
  constructor
  · obtain ⟨h69, husage, hr3⟩ := cycleN_spec 23
    have hpid : normPid 1 = 1 := by decide
    have hname : safe_name ("StuckApp") 1 = "StuckApp" := by decide
    have hmem : "StuckApp" ∉ IGNORE_LIST := by decide
    have husage0 : (cycleN 23).usage_history = fun _ => 0 := husage
    simp only [compute_scores, scoreStep, processRow, List.foldl, sortDesc, insertDesc,
      visArea, classify, scenarioB_task, hpid, hname, h69, husage0, hr3]
    norm_num [clamp01, VIRTUAL_CPU_UNITS, VIRTUAL_RAM_MB, ALPHA_CPU, BETA_RAM, GAMMA_WAIT,
      DELTA_VIS, EPS_HISTORY, hmem, round3, round2, round1, pyRound, pyRoundInt,
      List.filter, List.getLast?, h69, husage0, hr3]
  · intro df vis st
    rw [List.filter_eq_nil_iff]
    intro r hrm
    have hrm' : r ∈ (df.foldl (scoreStep vis) (st, [])).2 := by
      have : (compute_scores df vis st).1 = sortDesc (df.foldl (scoreStep vis) (st, [])).2 := rfl
      rw [this, mem_sortDesc] at hrm
      exact hrm
    have := scoreFold_action vis df st [] (by intro x hx; cases hx) r hrm'
    simpa using this
